import Mathlib

/-!
Shallow embedding of `src/bible_verse.py` (the inky-bible-verse plugin) and
verification of the specification's claims about it.

Pure fragments of the Python module are translated directly: the `BOOKS`
table, the hour/minute → chapter/verse selection of `generate_image`, the
verse-key construction and dictionary update of `BibleCache`, the text
cleaning pipeline of `fetch_verse` (strip, tag removal by the regex
`<[^>]+>`, whitespace collapsing by `\s+`, strip), the candidate filtering
and fallback of `pick_book_and_fetch`, the download grid of
`download_all_verses`, the word-wrap loop of `wrap_text`, and the
thread-slot guard of `start_bulk_download`.  Effects are made explicit:
the network is an oracle argument, the JSON cache file is an association
list threaded through the functions, `random.shuffle` becomes a
permutation parameter, and the font measure of `draw.textbbox` becomes a
function argument.
-/

namespace BibleVerse

/-- One entry of the `BOOKS` table: `(display name, bolls.life book ID, max chapters)`. -/
structure Book where
  name : String
  bookId : Nat
  maxChapters : Nat
deriving DecidableEq, Repr

/-- The `BOOKS` table of the source, in source order. -/
def BOOKS : List Book := [
  ⟨"Genesis", 1, 50⟩, ⟨"Exodus", 2, 40⟩,
  ⟨"Leviticus", 3, 27⟩, ⟨"Numbers", 4, 36⟩,
  ⟨"Deuteronomy", 5, 34⟩, ⟨"Joshua", 6, 24⟩,
  ⟨"Judges", 7, 21⟩, ⟨"Ruth", 8, 4⟩,
  ⟨"1 Samuel", 9, 31⟩, ⟨"2 Samuel", 10, 24⟩,
  ⟨"1 Kings", 11, 22⟩, ⟨"2 Kings", 12, 25⟩,
  ⟨"1 Chronicles", 13, 29⟩, ⟨"2 Chronicles", 14, 36⟩,
  ⟨"Ezra", 15, 10⟩, ⟨"Nehemiah", 16, 13⟩,
  ⟨"Esther", 17, 10⟩, ⟨"Job", 18, 42⟩,
  ⟨"Psalm", 19, 150⟩, ⟨"Proverbs", 20, 31⟩,
  ⟨"Ecclesiastes", 21, 12⟩, ⟨"Song of Solomon", 22, 8⟩,
  ⟨"Isaiah", 23, 66⟩, ⟨"Jeremiah", 24, 52⟩,
  ⟨"Lamentations", 25, 5⟩, ⟨"Ezekiel", 26, 48⟩,
  ⟨"Daniel", 27, 12⟩, ⟨"Hosea", 28, 14⟩,
  ⟨"Joel", 29, 3⟩, ⟨"Amos", 30, 9⟩,
  ⟨"Obadiah", 31, 1⟩, ⟨"Jonah", 32, 4⟩,
  ⟨"Micah", 33, 7⟩, ⟨"Nahum", 34, 3⟩,
  ⟨"Habakkuk", 35, 3⟩, ⟨"Zephaniah", 36, 3⟩,
  ⟨"Haggai", 37, 2⟩, ⟨"Zechariah", 38, 14⟩,
  ⟨"Malachi", 39, 4⟩,
  ⟨"Matthew", 40, 28⟩, ⟨"Mark", 41, 16⟩,
  ⟨"Luke", 42, 24⟩, ⟨"John", 43, 21⟩,
  ⟨"Acts", 44, 28⟩, ⟨"Romans", 45, 16⟩,
  ⟨"1 Corinthians", 46, 16⟩, ⟨"2 Corinthians", 47, 13⟩,
  ⟨"Galatians", 48, 6⟩, ⟨"Ephesians", 49, 6⟩,
  ⟨"Philippians", 50, 4⟩, ⟨"Colossians", 51, 4⟩,
  ⟨"1 Thessalonians", 52, 5⟩, ⟨"2 Thessalonians", 53, 3⟩,
  ⟨"1 Timothy", 54, 6⟩, ⟨"2 Timothy", 55, 4⟩,
  ⟨"Titus", 56, 3⟩, ⟨"Philemon", 57, 1⟩,
  ⟨"Hebrews", 58, 13⟩, ⟨"James", 59, 5⟩,
  ⟨"1 Peter", 60, 5⟩, ⟨"2 Peter", 61, 3⟩,
  ⟨"1 John", 62, 5⟩, ⟨"2 John", 63, 1⟩,
  ⟨"3 John", 64, 1⟩, ⟨"Jude", 65, 1⟩,
  ⟨"Revelation", 66, 22⟩]

/-- `generate_image` line 299: `chapter = now.hour if now.hour != 0 else 24`. -/
def selectChapter (hour : Nat) : Nat :=
  if hour ≠ 0 then hour else 24

/-- `generate_image` line 300: `verse = now.minute if now.minute != 0 else 1`. -/
def selectVerse (minute : Nat) : Nat :=
  if minute ≠ 0 then minute else 1

/-- The cache key: `key = f"{book_id}_{chapter}_{verse}"`. -/
def verseKey (bookId chapter verse : Nat) : String :=
  toString bookId ++ "_" ++ toString chapter ++ "_" ++ toString verse

/-- The flat JSON verse cache.  Each translation has its own file holding a
string-to-string dictionary; the whole store is modelled as one association
list keyed by `(translation, key)`, most recent binding first (a Python dict
update overwrites, and lookups take the most recent binding). -/
structure BibleCache where
  entries : List ((String × String) × String)
deriving DecidableEq, Repr

/-- `BibleCache.get_verse_from_cache`: load the translation's dictionary and
return `cache.get(key)` for `key = f"{book_id}_{chapter}_{verse}"`. -/
def get_verse_from_cache (c : BibleCache) (translation : String)
    (bookId chapter verse : Nat) : Option String :=
  (c.entries.find? (fun e => e.1 == (translation, verseKey bookId chapter verse))).map
    (fun e => e.2)

/-- `BibleCache.save_verse_to_cache`: load the translation's dictionary, set
`cache[key] = text`, save. -/
def save_verse_to_cache (c : BibleCache) (translation : String)
    (bookId chapter verse : Nat) (text : String) : BibleCache :=
  ⟨((translation, verseKey bookId chapter verse), text) :: c.entries⟩

/-- The whitespace class used by Python's `str.split`, `str.strip` and the
regex `\s` (ASCII range). -/
def isSpace (c : Char) : Bool :=
  c == ' ' || c == '\t' || c == '\n' || c == '\r' || c == '\x0b' || c == '\x0c'

/-- Python `text.strip()`: remove leading and trailing whitespace. -/
def stripWS (l : List Char) : List Char :=
  ((l.dropWhile isSpace).reverse.dropWhile isSpace).reverse

/-- The scanner for `re.sub(r'<[^>]+>', '', text)`.  The first argument is
the scan state: `none` when not inside a potential match, `some buf` when a
`<` has been read and `buf` holds the (reversed) run of non-`>` characters
read since.  A `>` closing a non-empty run deletes the whole match; a `>`
immediately after the `<` is no match, so both characters are kept
(`[^>]+` needs at least one character); an unclosed `<` at the end of the
input is kept literally, as the regex cannot match without a later `>`. -/
def stripTagsAux : Option (List Char) → List Char → List Char
  | none, [] => []
  | none, c :: cs =>
    if c = '<' then stripTagsAux (some []) cs
    else c :: stripTagsAux none cs
  | some buf, [] => '<' :: buf.reverse
  | some buf, c :: cs =>
    if c = '>' then
      if buf.isEmpty then '<' :: '>' :: stripTagsAux none cs
      else stripTagsAux none cs
    else stripTagsAux (some (c :: buf)) cs

/-- `re.sub(r'<[^>]+>', '', text)`: scanning left to right, a `<` followed by
one or more non-`>` characters and then a `>` is deleted; any character not
part of such a match is kept. -/
def stripTags (l : List Char) : List Char :=
  stripTagsAux none l

/-- The scanner for `re.sub(r'\s+', ' ', text)`.  `afterSpace` records
whether the character just read belongs to a whitespace run whose single
replacement space has already been emitted. -/
def collapseWSAux (afterSpace : Bool) : List Char → List Char
  | [] => []
  | c :: cs =>
    if isSpace c then
      if afterSpace then collapseWSAux true cs
      else ' ' :: collapseWSAux true cs
    else c :: collapseWSAux false cs

/-- `re.sub(r'\s+', ' ', text)`: each maximal run of whitespace becomes a
single space. -/
def collapseWS (l : List Char) : List Char :=
  collapseWSAux false l

/-- The cleaning `fetch_verse` applies to the API body's `"text"` field:
`strip()`, tag removal, whitespace collapsing, `strip()`. -/
def cleanChars (l : List Char) : List Char :=
  stripWS (collapseWS (stripTags (stripWS l)))

/-- `cleanChars` on strings. -/
def cleanVerse (s : String) : String :=
  ⟨cleanChars s.toList⟩

/-- Result of one `fetch_verse` call: the returned value, the cache object
afterwards, and whether the network was contacted. -/
structure FetchOutcome where
  result : Option String
  cache : Option BibleCache
  networkUsed : Bool
deriving DecidableEq, Repr

/-- `fetch_verse(translation, book_id, chapter, verse, cache)`.  The network
is the oracle `net`: `some raw` models a response whose JSON body has a
`"text"` field equal to `raw`; `none` models any failure (URLError, bad
JSON, a body without `"text"`).  A truthy cached value returns immediately;
otherwise the network is contacted, the cleaned text is written back to the
cache when one was supplied, and failures return `none`. -/
def fetch_verse (net : Option String) (translation : String)
    (bookId chapter verse : Nat) (cache : Option BibleCache) : FetchOutcome :=
  let hit : Option String :=
    match cache with
    | some c =>
      match get_verse_from_cache c translation bookId chapter verse with
      | some t => if t = "" then none else some t
      | none => none
    | none => none
  match hit with
  | some t => ⟨some t, cache, false⟩
  | none =>
    match net with
    | some raw =>
      let text := cleanVerse raw
      let cache2 : Option BibleCache :=
        match cache with
        | some c => some (save_verse_to_cache c translation bookId chapter verse text)
        | none => none
      ⟨some text, cache2, true⟩
    | none => ⟨none, cache, true⟩

/-- `pick_book_and_fetch` line 210:
`[(name, book_id) for name, book_id, max_ch in BOOKS if max_ch >= chapter]`. -/
def candidates (chapter : Nat) : List (String × Nat) :=
  (BOOKS.filter (fun b => chapter ≤ b.maxChapters)).map (fun b => (b.name, b.bookId))

/-- The hardcoded fallback book name. -/
def defaultBook : String := "Psalm"

/-- The hardcoded fallback verse text (Psalm 23:1). -/
def defaultText : String := "The Lord is my shepherd; I shall not want."

/-- The `for name, book_id in candidates:` loop of `pick_book_and_fetch`.
`fetch bookId` is the value `fetch_verse` returns for that book (the
translation, chapter, verse and cache are fixed for the whole loop).
`none` means the loop fell through without finding a truthy text. -/
def pickLoop (fetch : Nat → Option String) : List (String × Nat) → Option (String × String)
  | [] => none
  | (name, bookId) :: rest =>
    match fetch bookId with
    | some t => if t = "" then pickLoop fetch rest else some (name, t)
    | none => pickLoop fetch rest

/-- `pick_book_and_fetch(translation, chapter, verse, cache)`, parameterised
by the order `shuffled` in which `random.shuffle` left the candidate list
(a permutation of `candidates chapter`) and by the per-book fetch result. -/
def pick_book_and_fetch (fetch : Nat → Option String) (chapter : Nat)
    (shuffled : List (String × Nat)) : String × String :=
  if candidates chapter = [] then (defaultBook, defaultText)
  else
    match pickLoop fetch shuffled with
    | some r => r
    | none => (defaultBook, defaultText)

/-- `download_all_verses` line 175:
`total_combinations = 24 * 60 * len(translations_to_download)`. -/
def total_combinations (translations : List String) : Nat :=
  24 * 60 * translations.length

/-- `download_all_verses` line 183:
`candidates = [(book_id,) for _, book_id, max_ch in BOOKS if max_ch >= chapter]`. -/
def candidateIds (chapter : Nat) : List Nat :=
  (BOOKS.filter (fun b => chapter ≤ b.maxChapters)).map (fun b => b.bookId)

/-- The sequence of `fetch_verse` calls `download_all_verses` makes, in
order: for each translation, for `chapter in range(1, 25)`, for
`verse in range(1, 61)`, the first candidate book id when the candidate
list is non-empty; one `(translation, book_id, chapter, verse)` tuple per
attempted fetch. -/
def downloadAttempts (translations : List String) : List (String × Nat × Nat × Nat) :=
  translations.flatMap (fun t =>
    (List.range' 1 24).flatMap (fun chapter =>
      (List.range' 1 60).filterMap (fun verse =>
        match candidateIds chapter with
        | [] => none
        | bookId :: _ => some (t, bookId, chapter, verse))))

/-- The scanner for Python `text.split()`: `buf` holds the (reversed)
characters of the word currently being read, flushed when whitespace or the
end of the input is reached. -/
def pySplitAux (buf : List Char) : List Char → List (List Char)
  | [] => if buf.isEmpty then [] else [buf.reverse]
  | c :: cs =>
    if isSpace c then
      if buf.isEmpty then pySplitAux [] cs
      else buf.reverse :: pySplitAux [] cs
    else pySplitAux (c :: buf) cs

/-- Python `text.split()`: split on runs of whitespace, no empty words. -/
def pySplit (l : List Char) : List (List Char) :=
  pySplitAux [] l

/-- One iteration of the `wrap_text` loop; the state is
`(lines so far, current)` and `word` the word being placed.  `width` is the
pixel measure `bbox[2] - bbox[0]` of `draw.textbbox` for the given font. -/
def wrapStep (width : List Char → Nat) (maxWidth : Nat)
    (st : List (List Char) × List Char) (word : List Char) :
    List (List Char) × List Char :=
  let test := stripWS (st.2 ++ ' ' :: word)
  if width test ≤ maxWidth then (st.1, test)
  else if st.2 = [] then (st.1, word)
  else (st.1 ++ [st.2], word)

/-- `wrap_text(text, font, draw, max_width)`; the font/draw pair is
abstracted into the pixel-width measure `width`. -/
def wrap_text (width : List Char → Nat) (text : List Char) (maxWidth : Nat) :
    List (List Char) :=
  let st := (pySplit text).foldl (wrapStep width maxWidth) ([], [])
  if st.2 = [] then st.1 else st.1 ++ [st.2]

/-- `' '.join`-style concatenation used to state claim C10. -/
def joinSpace (lines : List (List Char)) : List Char :=
  List.intercalate [' '] lines

/-- The plugin's download-thread slot: `alive` models `Thread.is_alive()`. -/
structure ThreadRef where
  alive : Bool
deriving DecidableEq, Repr

/-- `BibleVerse.start_bulk_download`: given the stored
`self.download_thread` slot (`none` = the initial `None`) and the thread a
new `threading.Thread(...)` would create, return the slot afterwards and
whether a new thread was created and started. -/
def start_bulk_download (slot : Option ThreadRef) (fresh : ThreadRef) :
    Option ThreadRef × Bool :=
  match slot with
  | some t => if t.alive then (some t, false) else (some fresh, true)
  | none => (some fresh, true)

/-- A substring of the form `<`...`>`: some `<` occurring before some later
`>` (the reading of claim C6 in which the interior may be anything,
including empty). -/
def ContainsAngle (l : List Char) : Prop :=
  ∃ a mid b, l = a ++ '<' :: (mid ++ '>' :: b)

/-- A substring matching the tag regex `<[^>]+>`: a `<`, then one or more
characters none of which is `>`, then `>`. -/
def HasTagMatch (l : List Char) : Prop :=
  ∃ a mid b, l = a ++ '<' :: (mid ++ '>' :: b) ∧ mid ≠ [] ∧ '>' ∉ mid

/-- Every `<` is immediately followed by `>` or has no `>` anywhere after
it.  This is the shape `stripTags` leaves, and it excludes any `<[^>]+>`
match. -/
def NoOpenTag : List Char → Prop
  | [] => True
  | c :: cs => (c = '<' → cs = [] ∨ cs.head? = some '>' ∨ '>' ∉ cs) ∧ NoOpenTag cs

/-- No two adjacent whitespace characters (no run of length two or more). -/
def NoDoubleWS (l : List Char) : Prop :=
  List.Chain' (fun a b => ¬(isSpace a = true ∧ isSpace b = true)) l

/-- No leading and no trailing whitespace. -/
def NoEdgeWS (l : List Char) : Prop :=
  (∀ c, l.head? = some c → isSpace c = false) ∧
  (∀ c, l.getLast? = some c → isSpace c = false)

/-- Claim C1: for every local time observed by `generate_image`, the selected
chapter equals the hour except that hour 0 maps to chapter 24, the selected
verse equals the minute except that minute 0 maps to verse 1, the chapter is
always in 1..24 and the verse is always in 1..59. -/
theorem C1_time_selection (hour minute : Nat) (hh : hour < 24) (hm : minute < 60) :
    selectChapter hour = (if hour = 0 then 24 else hour) ∧
    selectVerse minute = (if minute = 0 then 1 else minute) ∧
    1 ≤ selectChapter hour ∧ selectChapter hour ≤ 24 ∧
    1 ≤ selectVerse minute ∧ selectVerse minute ≤ 59 := by
  unfold selectChapter selectVerse
  by_cases h0 : hour = 0 <;> by_cases m0 : minute = 0 <;>
    simp [h0, m0] <;> omega

/-- Witness for C1 at the midnight edge case `hour = 0`, `minute = 0`. -/
theorem C1_time_selection_witness :
    1 ≤ selectChapter 0 ∧ selectChapter 0 ≤ 24 ∧
    1 ≤ selectVerse 0 ∧ selectVerse 0 ≤ 59 := by
  have h := C1_time_selection 0 0 (by decide) (by decide)
  exact ⟨h.2.2.1, h.2.2.2.1, h.2.2.2.2.1, h.2.2.2.2.2⟩

theorem pickLoop_eq_none (fetch : Nat → Option String)
    (l : List (String × Nat)) (h : ∀ p ∈ l, fetch p.2 = none) :
    pickLoop fetch l = none := by
  induction l with
  | nil => rfl
  | cons p rest ih =>
    obtain ⟨name, bookId⟩ := p
    have hp : fetch bookId = none := h (name, bookId) (List.mem_cons_self _ _)
    simp only [pickLoop, hp]
    exact ih (fun q hq => h q (List.mem_cons_of_mem _ hq))

/-- Claim C2: for every translation, chapter and verse (absorbed into the
fetch oracle), if no book in the books table has at least `chapter`
chapters, or if `fetch_verse` returns no text for any candidate book, then
`pick_book_and_fetch` returns the hardcoded default pair
`("Psalm", "The Lord is my shepherd; I shall not want.")`. -/
theorem C2_default_fallback (fetch : Nat → Option String) (chapter : Nat)
    (shuffled : List (String × Nat)) (hperm : shuffled.Perm (candidates chapter))
    (h : candidates chapter = [] ∨ ∀ p ∈ candidates chapter, fetch p.2 = none) :
    pick_book_and_fetch fetch chapter shuffled =
      ("Psalm", "The Lord is my shepherd; I shall not want.") := by
  rcases h with h | h
  · simp [pick_book_and_fetch, h, defaultBook, defaultText]
  · have hnone : pickLoop fetch shuffled = none :=
      pickLoop_eq_none fetch shuffled (fun p hp => h p (hperm.mem_iff.mp hp))
    unfold pick_book_and_fetch
    rw [hnone]
    by_cases hc : candidates chapter = [] <;> simp [hc, defaultBook, defaultText]

/-- Witness for C2: chapter 200 exceeds every book's chapter count, so the
candidate list is empty and the fallback pair is returned. -/
theorem C2_default_fallback_witness :
    pick_book_and_fetch (fun _ => none) 200 [] =
      ("Psalm", "The Lord is my shepherd; I shall not want.") := by
  have hc : candidates 200 = [] := by decide
  exact C2_default_fallback (fun _ => none) 200 []
    (by rw [hc]) (Or.inl hc)

theorem pickLoop_some_mem (fetch : Nat → Option String)
    (l : List (String × Nat)) (name text : String)
    (h : pickLoop fetch l = some (name, text)) :
    ∃ bookId, (name, bookId) ∈ l := by
  induction l with
  | nil => simp [pickLoop] at h
  | cons p rest ih =>
    obtain ⟨n, b⟩ := p
    cases hf : fetch b with
    | none =>
      simp only [pickLoop, hf] at h
      obtain ⟨bid, hb⟩ := ih h
      exact ⟨bid, List.mem_cons_of_mem _ hb⟩
    | some t =>
      simp only [pickLoop, hf] at h
      by_cases ht : t = ""
      · rw [if_pos ht] at h
        obtain ⟨bid, hb⟩ := ih h
        exact ⟨bid, List.mem_cons_of_mem _ hb⟩
      · rw [if_neg ht] at h
        injection h with h'
        injection h' with h1 h2
        exact ⟨b, by rw [← h1]; exact List.mem_cons_self _ _⟩

/-- Claim C3: whenever `pick_book_and_fetch` returns without taking the
hardcoded fallback — that is, its candidate loop found a truthy text — the
returned book name belongs to an entry of the `BOOKS` table whose maximum
chapter count is at least the requested chapter. -/
theorem C3_book_contains_chapter (fetch : Nat → Option String) (chapter : Nat)
    (shuffled : List (String × Nat)) (hperm : shuffled.Perm (candidates chapter))
    (name text : String) (h : pickLoop fetch shuffled = some (name, text)) :
    pick_book_and_fetch fetch chapter shuffled = (name, text) ∧
    ∃ b : Book, b ∈ BOOKS ∧ b.name = name ∧ chapter ≤ b.maxChapters := by
  obtain ⟨bookId, hmem⟩ := pickLoop_some_mem fetch shuffled name text h
  have hcand : (name, bookId) ∈ candidates chapter := hperm.mem_iff.mp hmem
  have hne : candidates chapter ≠ [] := by
    intro hc
    rw [hc] at hcand
    exact List.not_mem_nil _ hcand
  constructor
  · unfold pick_book_and_fetch
    rw [if_neg hne, h]
  · unfold candidates at hcand
    obtain ⟨b, hb, hbeq⟩ := List.mem_map.mp hcand
    obtain ⟨hbBooks, hble⟩ := List.mem_filter.mp hb
    refine ⟨b, hbBooks, ?_, by simpa using hble⟩
    have := congrArg Prod.fst hbeq
    simpa using this

/-- Witness for C3: chapter 25, a fetch that succeeds only for book id 1
(Genesis); Genesis is returned and indeed has at least 25 chapters. -/
theorem C3_book_contains_chapter_witness :
    ∃ b : Book, b ∈ BOOKS ∧ b.name = "Genesis" ∧ 25 ≤ b.maxChapters := by
  have h := C3_book_contains_chapter
    (fun bookId => if bookId = 1 then some "In the beginning" else none)
    25 (candidates 25) (List.Perm.refl _) "Genesis" "In the beginning" (by decide)
  exact h.2

/-- Claim C4: the verse cache is a flat key-value map keyed by
`"{book}_{chapter}_{verse}"`: after `save_verse_to_cache` stores `text`
under a triple, `get_verse_from_cache` with the same translation and triple
returns exactly that text, and the key used is the three components joined
by underscores. -/
theorem C4_cache_roundtrip (c : BibleCache) (translation : String)
    (bookId chapter verse : Nat) (text : String) :
    get_verse_from_cache (save_verse_to_cache c translation bookId chapter verse text)
        translation bookId chapter verse = some text ∧
    verseKey bookId chapter verse =
      toString bookId ++ "_" ++ toString chapter ++ "_" ++ toString verse := by
  constructor
  · unfold get_verse_from_cache save_verse_to_cache
    simp
  · rfl

/-- Claim C5: `fetch_verse` is cache-first: if a cache is supplied and holds
a non-empty text for the key, it returns that text unchanged, performs no
network request, and leaves the cache unchanged. -/
theorem C5_cache_first (net : Option String) (translation : String)
    (bookId chapter verse : Nat) (c : BibleCache) (t : String)
    (hhit : get_verse_from_cache c translation bookId chapter verse = some t)
    (hne : t ≠ "") :
    fetch_verse net translation bookId chapter verse (some c) =
      ⟨some t, some c, false⟩ := by
  simp only [fetch_verse, hhit]
  simp [hne]

/-- Witness for C5: a one-entry cache holding `"x"` for NASB Psalm 23:1. -/
theorem C5_cache_first_witness :
    fetch_verse none "NASB" 19 23 1 (some ⟨[(("NASB", verseKey 19 23 1), "x")]⟩) =
      ⟨some "x", some ⟨[(("NASB", verseKey 19 23 1), "x")]⟩, false⟩ :=
  C5_cache_first none "NASB" 19 23 1 ⟨[(("NASB", verseKey 19 23 1), "x")]⟩ "x"
    (by decide) (by decide)

/-- Claim C9: at most one bulk pre-fetch runs at a time: when
`start_bulk_download` is called while the stored download thread is alive,
it returns without creating or starting a new thread and leaves the stored
thread reference unchanged. -/
theorem C9_no_second_download (slot : Option ThreadRef) (t fresh : ThreadRef)
    (hslot : slot = some t) (halive : t.alive = true) :
    start_bulk_download slot fresh = (slot, false) := by
  subst hslot
  simp [start_bulk_download, halive]

/-- Witness for C9 with a live stored thread. -/
theorem C9_no_second_download_witness :
    start_bulk_download (some ⟨true⟩) ⟨false⟩ = (some ⟨true⟩, false) :=
  C9_no_second_download (some ⟨true⟩) ⟨true⟩ ⟨false⟩ rfl rfl

theorem candidateIds_cons_one (chapter : Nat) (hc : chapter ≤ 50) :
    ∃ rest, candidateIds chapter = 1 :: rest := by
  unfold candidateIds BOOKS
  rw [List.filter_cons_of_pos (by simpa using hc)]
  exact ⟨_, rfl⟩

theorem downloadInner_eq (t : String) (chapter : Nat) (hc : chapter ∈ List.range' 1 24) :
    ((List.range' 1 60).filterMap (fun verse =>
        match candidateIds chapter with
        | [] => none
        | bookId :: _ => some (t, bookId, chapter, verse))) =
      (List.range' 1 60).map (fun verse => (t, 1, chapter, verse)) := by
  have hle : chapter ≤ 50 := by
    obtain ⟨i, hi, rfl⟩ := List.mem_range'.mp hc
    omega
  obtain ⟨rest, hrest⟩ := candidateIds_cons_one chapter hle
  rw [hrest]
  exact congrFun (List.filterMap_eq_map (fun verse => (t, 1, chapter, verse)))
    (List.range' 1 60)

theorem grid_length (ts : List String) :
    (ts.flatMap (fun t =>
      (List.range' 1 24).flatMap (fun chapter =>
        (List.range' 1 60).map (fun verse => (t, chapter, verse))))).length =
      24 * 60 * ts.length := by
  induction ts with
  | nil => rfl
  | cons t ts ih =>
    rw [List.flatMap_cons, List.length_append, ih]
    have hlen : ((List.range' 1 24).flatMap (fun chapter =>
        (List.range' 1 60).map (fun verse => (t, chapter, verse)))).length = 1440 := by
      simp [List.length_flatMap, Function.comp_def]
    rw [hlen]
    simp only [List.length_cons]
    ring

/-- Claim C7: `download_all_verses` attempts a fetch for exactly the fixed
grid: for each translation, every pair with chapter in 1..24 and verse in
1..60, in that nested order, and the total combination count it reports
progress against is `24 * 60 * len(translations)`. -/
theorem C7_download_grid (translations : List String) :
    (downloadAttempts translations).map (fun x => (x.1, x.2.2)) =
      translations.flatMap (fun t =>
        (List.range' 1 24).flatMap (fun chapter =>
          (List.range' 1 60).map (fun verse => (t, chapter, verse)))) ∧
    total_combinations translations = 24 * 60 * translations.length ∧
    (downloadAttempts translations).length = total_combinations translations := by
  have hmain : (downloadAttempts translations).map (fun x => (x.1, x.2.2)) =
      translations.flatMap (fun t =>
        (List.range' 1 24).flatMap (fun chapter =>
          (List.range' 1 60).map (fun verse => (t, chapter, verse)))) := by
    unfold downloadAttempts
    rw [List.map_flatMap]
    refine List.flatMap_congr (fun t _ => ?_)
    rw [List.map_flatMap]
    refine List.flatMap_congr (fun chapter hc => ?_)
    rw [downloadInner_eq t chapter hc, List.map_map]
    rfl
  refine ⟨hmain, rfl, ?_⟩
  have h1 : (downloadAttempts translations).length =
      (translations.flatMap (fun t =>
        (List.range' 1 24).flatMap (fun chapter =>
          (List.range' 1 60).map (fun verse => (t, chapter, verse))))).length := by
    rw [← hmain, List.length_map]
  rw [h1, grid_length]
  rfl

theorem wrapStep_invariant (width : List Char → Nat) (maxW : Nat)
    (W : List (List Char)) (st : List (List Char) × List Char) (w : List Char)
    (hw : w ∈ W)
    (h1 : ∀ l ∈ st.1, width l ≤ maxW ∨ l ∈ W)
    (h2 : st.2 = [] ∨ width st.2 ≤ maxW ∨ st.2 ∈ W) :
    (∀ l ∈ (wrapStep width maxW st w).1, width l ≤ maxW ∨ l ∈ W) ∧
    ((wrapStep width maxW st w).2 = [] ∨
      width (wrapStep width maxW st w).2 ≤ maxW ∨ (wrapStep width maxW st w).2 ∈ W) := by
  unfold wrapStep
  by_cases hfit : width (stripWS (st.2 ++ ' ' :: w)) ≤ maxW
  · rw [if_pos hfit]
    exact ⟨h1, Or.inr (Or.inl hfit)⟩
  · rw [if_neg hfit]
    by_cases hcur : st.2 = []
    · rw [if_pos hcur]
      exact ⟨h1, Or.inr (Or.inr hw)⟩
    · rw [if_neg hcur]
      refine ⟨?_, Or.inr (Or.inr hw)⟩
      intro l hl
      rcases List.mem_append.mp hl with hl | hl
      · exact h1 l hl
      · have : l = st.2 := by simpa using hl
        subst this
        rcases h2 with h2 | h2
        · exact absurd h2 hcur
        · exact h2

theorem wrapFold_invariant (width : List Char → Nat) (maxW : Nat)
    (W : List (List Char)) :
    ∀ (ws : List (List Char)), (∀ w ∈ ws, w ∈ W) →
    ∀ (st : List (List Char) × List Char),
    (∀ l ∈ st.1, width l ≤ maxW ∨ l ∈ W) →
    (st.2 = [] ∨ width st.2 ≤ maxW ∨ st.2 ∈ W) →
    (∀ l ∈ (ws.foldl (wrapStep width maxW) st).1, width l ≤ maxW ∨ l ∈ W) ∧
    ((ws.foldl (wrapStep width maxW) st).2 = [] ∨
      width (ws.foldl (wrapStep width maxW) st).2 ≤ maxW ∨
      (ws.foldl (wrapStep width maxW) st).2 ∈ W) := by
  intro ws
  induction ws with
  | nil => intro _ st h1 h2; exact ⟨h1, h2⟩
  | cons w ws ih =>
    intro hws st h1 h2
    rw [List.foldl_cons]
    have hstep := wrapStep_invariant width maxW W st w
      (hws w (List.mem_cons_self _ _)) h1 h2
    exact ih (fun v hv => hws v (List.mem_cons_of_mem _ hv))
      (wrapStep width maxW st w) hstep.1 hstep.2

/-- Claim C8 (amended): every line returned by `wrap_text` either has
measured pixel width at most the given maximum width, or consists of a
single whitespace-delimited word of the input (a too-wide word is placed on
a line of its own without a width check). -/
theorem C8_wrap_width (width : List Char → Nat) (text : List Char) (maxWidth : Nat) :
    ∀ line ∈ wrap_text width text maxWidth,
      width line ≤ maxWidth ∨ line ∈ pySplit text := by
  intro line hline
  unfold wrap_text at hline
  have hinv := wrapFold_invariant width maxWidth (pySplit text) (pySplit text)
    (fun w hw => hw) ([], []) (by simp) (Or.inl rfl)
  set st := (pySplit text).foldl (wrapStep width maxWidth) ([], []) with hst
  by_cases hcur : st.2 = []
  · rw [if_pos hcur] at hline
    exact hinv.1 line hline
  · rw [if_neg hcur] at hline
    rcases List.mem_append.mp hline with hl | hl
    · exact hinv.1 line hl
    · have : line = st.2 := by simpa using hl
      subst this
      rcases hinv.2 with h | h
      · exact absurd h hcur
      · exact h

/-- Witness for C8 on input `"ab cd"`, width measure = character count,
maximum width 10: the single returned line `"ab cd"` satisfies the
disjunction. -/
theorem C8_wrap_width_witness :
    (fun l : List Char => l.length) ("ab cd".toList) ≤ 10 ∨
      ("ab cd".toList) ∈ pySplit ("ab cd".toList) :=
  C8_wrap_width (fun l => l.length) ("ab cd".toList) 10 ("ab cd".toList) (by decide)

/-- Claim C8 as stated is false: with a one-pixel-per-character measure and
maximum width 3, the single word `"hello"` is returned as a line measuring
5 > 3 (a word wider than the maximum is emitted without a width check). -/
theorem C8_counterexample :
    ∃ line ∈ wrap_text (fun l => l.length) ("hello".toList) 3,
      ¬ (fun l : List Char => l.length) line ≤ 3 := by
  decide

theorem head?_dropWhile_eq_false (p : Char → Bool) (l : List Char) (c : Char)
    (h : (l.dropWhile p).head? = some c) : p c = false := by
  induction l with
  | nil => simp [List.dropWhile] at h
  | cons d ds ih =>
    rw [List.dropWhile_cons] at h
    by_cases hp : p d
    · rw [if_pos hp] at h
      exact ih h
    · rw [if_neg hp] at h
      simp at h
      subst h
      simpa using hp

theorem noOpenTag_of_not_mem (l : List Char) (h : '>' ∉ l) : NoOpenTag l := by
  induction l with
  | nil => trivial
  | cons c cs ih =>
    refine ⟨fun _ => Or.inr (Or.inr fun hm => h (List.mem_cons_of_mem _ hm)), ?_⟩
    exact ih (fun hm => h (List.mem_cons_of_mem _ hm))

theorem noOpenTag_append_right (a b : List Char) (h : NoOpenTag (a ++ b)) :
    NoOpenTag b := by
  induction a with
  | nil => exact h
  | cons c a' ih => exact ih h.2

theorem noOpenTag_append_left (a b : List Char) (h : NoOpenTag (a ++ b)) :
    NoOpenTag a := by
  induction a with
  | nil => trivial
  | cons c a' ih =>
    refine ⟨fun hc => ?_, ih h.2⟩
    rcases h.1 hc with h1 | h1 | h1
    · exact Or.inl (List.append_eq_nil.mp h1).1
    · cases a' with
      | nil => exact Or.inl rfl
      | cons d a'' =>
        simp only [List.cons_append, List.head?_cons] at h1 ⊢
        exact Or.inr (Or.inl h1)
    · exact Or.inr (Or.inr fun hm => h1 (List.mem_append.mpr (Or.inl hm)))

theorem stripTagsAux_spec (l : List Char) :
    (∀ buf : List Char, '>' ∉ buf → NoOpenTag (stripTagsAux (some buf) l)) ∧
    NoOpenTag (stripTagsAux none l) := by
  induction l with
  | nil =>
    constructor
    · intro buf hbuf
      refine ⟨fun _ => Or.inr (Or.inr ?_), ?_⟩
      · rw [List.mem_reverse]
        exact hbuf
      · exact noOpenTag_of_not_mem _ (by rw [List.mem_reverse]; exact hbuf)
    · trivial
  | cons c cs ih =>
    obtain ⟨ihs, ihn⟩ := ih
    constructor
    · intro buf hbuf
      show NoOpenTag (stripTagsAux (some buf) (c :: cs))
      unfold stripTagsAux
      by_cases hc : c = '>'
      · rw [if_pos hc]
        by_cases hbe : buf.isEmpty
        · rw [if_pos hbe]
          exact ⟨fun _ => Or.inr (Or.inl rfl), fun h => absurd h (by decide), ihn⟩
        · rw [if_neg hbe]
          exact ihn
      · rw [if_neg hc]
        refine ihs (c :: buf) ?_
        intro hm
        rcases List.mem_cons.mp hm with hm | hm
        · exact hc hm.symm
        · exact hbuf hm
    · show NoOpenTag (stripTagsAux none (c :: cs))
      unfold stripTagsAux
      by_cases hc : c = '<'
      · rw [if_pos hc]
        exact ihs [] (List.not_mem_nil _)
      · rw [if_neg hc]
        exact ⟨fun h => absurd h hc, ihn⟩

theorem stripTags_noOpenTag (l : List Char) : NoOpenTag (stripTags l) :=
  (stripTagsAux_spec l).2

theorem collapseWSAux_mem (b : Bool) (l : List Char) (x : Char)
    (h : x ∈ collapseWSAux b l) : x ∈ l ∨ x = ' ' := by
  induction l generalizing b with
  | nil => simp [collapseWSAux] at h
  | cons c cs ih =>
    unfold collapseWSAux at h
    by_cases hsp : isSpace c
    · rw [if_pos hsp] at h
      cases b with
      | true =>
        rcases ih true (by simpa using h) with hm | hm
        · exact Or.inl (List.mem_cons_of_mem _ hm)
        · exact Or.inr hm
      | false =>
        rw [if_neg (by decide : ¬ (false = true))] at h
        rcases List.mem_cons.mp h with hm | hm
        · exact Or.inr hm
        · rcases ih true hm with hm' | hm'
          · exact Or.inl (List.mem_cons_of_mem _ hm')
          · exact Or.inr hm'
    · rw [if_neg hsp] at h
      rcases List.mem_cons.mp h with hm | hm
      · exact Or.inl (hm ▸ List.mem_cons_self _ _)
      · rcases ih false hm with hm' | hm'
        · exact Or.inl (List.mem_cons_of_mem _ hm')
        · exact Or.inr hm'

theorem collapseWSAux_noOpenTag (l : List Char) (b : Bool) (h : NoOpenTag l) :
    NoOpenTag (collapseWSAux b l) := by
  induction l generalizing b with
  | nil => trivial
  | cons c cs ih =>
    obtain ⟨h1, h2⟩ := h
    unfold collapseWSAux
    by_cases hsp : isSpace c
    · rw [if_pos hsp]
      cases b with
      | true => exact ih true h2
      | false =>
        refine ⟨fun hlt => absurd hlt (by decide), ih true h2⟩
    · rw [if_neg hsp]
      refine ⟨fun hc => ?_, ih false h2⟩
      rcases h1 hc with hcs | hcs | hcs
      · subst hcs
        exact Or.inl rfl
      · cases cs with
        | nil => exact Or.inl rfl
        | cons d cs' =>
          simp only [List.head?_cons, Option.some_inj] at hcs
          subst hcs
          unfold collapseWSAux
          rw [if_neg (by decide : ¬ isSpace '>' = true)]
          exact Or.inr (Or.inl rfl)
      · refine Or.inr (Or.inr fun hm => ?_)
        rcases collapseWSAux_mem false cs '>' hm with hm' | hm'
        · exact hcs hm'
        · exact absurd hm' (by decide)

theorem collapseWS_noOpenTag (l : List Char) (h : NoOpenTag l) :
    NoOpenTag (collapseWS l) :=
  collapseWSAux_noOpenTag l false h

theorem stripWS_noOpenTag (l : List Char) (h : NoOpenTag l) :
    NoOpenTag (stripWS l) := by
  obtain ⟨a, ha⟩ := List.dropWhile_suffix (l := l) isSpace
  have hx : NoOpenTag (l.dropWhile isSpace) := by
    rw [← ha] at h
    exact noOpenTag_append_right a _ h
  obtain ⟨a2, ha2⟩ :=
    List.dropWhile_suffix (l := (l.dropWhile isSpace).reverse) isSpace
  have hxdec : (l.dropWhile isSpace) =
      ((l.dropWhile isSpace).reverse.dropWhile isSpace).reverse ++ a2.reverse := by
    have := congrArg List.reverse ha2
    rw [List.reverse_append, List.reverse_reverse] at this
    exact this.symm
  unfold stripWS
  rw [hxdec] at hx
  exact noOpenTag_append_left _ _ hx

theorem noOpenTag_not_hasTagMatch_aux (mid b : List Char)
    (hmid : mid ≠ []) (hgt : '>' ∉ mid) :
    ∀ a : List Char, ¬ NoOpenTag (a ++ '<' :: (mid ++ '>' :: b)) := by
  intro a
  induction a with
  | nil =>
    intro h
    rcases h.1 rfl with h1 | h1 | h1
    · exact List.cons_ne_nil _ _ (List.append_eq_nil.mp h1).2
    · cases mid with
      | nil => exact hmid rfl
      | cons m mid' =>
        simp only [List.cons_append, List.head?_cons, Option.some_inj] at h1
        exact hgt (h1 ▸ List.mem_cons_self _ _)
    · exact h1 (List.mem_append.mpr (Or.inr (List.mem_cons_self _ _)))
  | cons c a' ih =>
    intro h
    exact ih h.2

theorem noOpenTag_not_hasTagMatch (l : List Char) (h : NoOpenTag l) :
    ¬ HasTagMatch l := by
  rintro ⟨a, mid, b, heq, hmid, hgt⟩
  rw [heq] at h
  exact noOpenTag_not_hasTagMatch_aux mid b hmid hgt a h

theorem collapseWSAux_head_true (l : List Char) (c : Char)
    (h : (collapseWSAux true l).head? = some c) : isSpace c = false := by
  induction l with
  | nil => simp [collapseWSAux] at h
  | cons d ds ih =>
    unfold collapseWSAux at h
    by_cases hsp : isSpace d
    · rw [if_pos hsp] at h
      exact ih (by simpa using h)
    · rw [if_neg hsp] at h
      simp only [List.head?_cons, Option.some_inj] at h
      subst h
      simpa using hsp

theorem collapseWSAux_noDoubleWS (l : List Char) (b : Bool) :
    NoDoubleWS (collapseWSAux b l) := by
  induction l generalizing b with
  | nil => exact List.chain'_nil
  | cons c cs ih =>
    unfold collapseWSAux
    by_cases hsp : isSpace c
    · rw [if_pos hsp]
      cases b with
      | true => exact ih true
      | false =>
        rw [if_neg (by decide : ¬ (false = true))]
        refine List.chain'_cons'.mpr ⟨?_, ih true⟩
        intro d hd
        have := collapseWSAux_head_true cs d hd
        simp [this]
    · rw [if_neg hsp]
      refine List.chain'_cons'.mpr ⟨?_, ih false⟩
      intro d _
      simp only [not_and]
      intro hc
      exact absurd hc (by simpa using hsp)

theorem collapseWS_noDoubleWS (l : List Char) : NoDoubleWS (collapseWS l) :=
  collapseWSAux_noDoubleWS l false

theorem noDoubleWS_append_right (a b : List Char) (h : NoDoubleWS (a ++ b)) :
    NoDoubleWS b :=
  List.Chain'.right_of_append h

theorem stripWS_noDoubleWS (l : List Char) (h : NoDoubleWS l) :
    NoDoubleWS (stripWS l) := by
  obtain ⟨a, ha⟩ := List.dropWhile_suffix (l := l) isSpace
  have hx : NoDoubleWS (l.dropWhile isSpace) := by
    rw [← ha] at h
    exact List.Chain'.right_of_append h
  have hrev : List.Chain'
      (flip fun a b : Char => ¬(isSpace a = true ∧ isSpace b = true))
      (l.dropWhile isSpace).reverse := by
    rw [List.chain'_reverse]
    refine hx.imp ?_
    intro x y hxy
    simp only [flip]
    tauto
  have hy : List.Chain'
      (flip fun a b : Char => ¬(isSpace a = true ∧ isSpace b = true))
      ((l.dropWhile isSpace).reverse.dropWhile isSpace) := by
    obtain ⟨a2, ha2⟩ :=
      List.dropWhile_suffix (l := (l.dropWhile isSpace).reverse) isSpace
    rw [← ha2] at hrev
    exact List.Chain'.right_of_append hrev
  unfold stripWS NoDoubleWS
  rw [List.chain'_reverse]
  refine hy.imp ?_
  intro x y hxy
  simp only [flip] at hxy
  tauto

theorem stripWS_noEdgeWS (l : List Char) : NoEdgeWS (stripWS l) := by
  constructor
  · intro c hc
    unfold stripWS at hc
    rw [List.head?_reverse] at hc
    rcases hy : (l.dropWhile isSpace).reverse.dropWhile isSpace with _ | ⟨d, y'⟩
    · rw [hy] at hc
      simp at hc
    · obtain ⟨a2, ha2⟩ :=
        List.dropWhile_suffix (l := (l.dropWhile isSpace).reverse) isSpace
      rw [hy] at hc ha2
      have hlast : (a2 ++ d :: y').getLast? = (d :: y').getLast? :=
        List.getLast?_append_of_ne_nil a2 (List.cons_ne_nil _ _)
      rw [ha2, List.getLast?_reverse] at hlast
      rw [← hlast] at hc
      exact head?_dropWhile_eq_false isSpace l c hc
  · intro c hc
    unfold stripWS at hc
    rw [List.getLast?_reverse] at hc
    exact head?_dropWhile_eq_false isSpace _ c hc

/-- Claim C6 (amended): for every API response body with a `"text"` field,
the string `fetch_verse` returns (the cleaned text) contains no substring
matching the tag regex `<[^>]+>` — though a bare `"<>"`, which the regex
does not match, may survive — contains no run of two or more whitespace
characters, and has no leading or trailing whitespace. -/
theorem C6_clean_text (raw : String) :
    ¬ HasTagMatch (cleanVerse raw).toList ∧
    NoDoubleWS (cleanVerse raw).toList ∧
    NoEdgeWS (cleanVerse raw).toList := by
  have htl : (cleanVerse raw).toList = cleanChars raw.toList := rfl
  rw [htl]
  unfold cleanChars
  refine ⟨?_, ?_, ?_⟩
  · exact noOpenTag_not_hasTagMatch _
      (stripWS_noOpenTag _ (collapseWS_noOpenTag _ (stripTags_noOpenTag _)))
  · exact stripWS_noDoubleWS _ (collapseWS_noDoubleWS _)
  · exact stripWS_noEdgeWS _

/-- Claim C6 as stated is false: the body `{"text": "<>"}` is cleaned to
`"<>"`, which still contains a `<` before a `>`; the regex `<[^>]+>`
requires a non-empty interior and does not remove it. -/
theorem C6_counterexample : ContainsAngle (cleanVerse "<>").toList :=
  ⟨[], [], [], by decide⟩

theorem pySplitAux_append_space (b : List Char) :
    ∀ (a buf : List Char),
      pySplitAux buf (a ++ ' ' :: b) = pySplitAux buf a ++ pySplit b := by
  intro a
  induction a with
  | nil =>
    intro buf
    show pySplitAux buf (' ' :: b) = pySplitAux buf [] ++ pySplit b
    unfold pySplitAux
    rw [if_pos (by decide : isSpace ' ' = true)]
    by_cases hbe : buf.isEmpty
    · rw [if_pos hbe, if_pos hbe]
      rfl
    · rw [if_neg hbe, if_neg hbe]
      rfl
  | cons c a' ih =>
    intro buf
    show pySplitAux buf (c :: (a' ++ ' ' :: b)) = pySplitAux buf (c :: a') ++ pySplit b
    unfold pySplitAux
    by_cases hsp : isSpace c
    · rw [if_pos hsp, if_pos hsp]
      by_cases hbe : buf.isEmpty
      · rw [if_pos hbe, if_pos hbe]
        exact ih []
      · rw [if_neg hbe, if_neg hbe]
        rw [ih []]
        rfl
    · rw [if_neg hsp, if_neg hsp]
      exact ih (c :: buf)

theorem pySplit_append_space (a b : List Char) :
    pySplit (a ++ ' ' :: b) = pySplit a ++ pySplit b :=
  pySplitAux_append_space b a []

theorem pySplitAux_all_nonspace :
    ∀ (w buf : List Char), (∀ c ∈ w, isSpace c = false) →
      ¬(buf = [] ∧ w = []) → pySplitAux buf w = [buf.reverse ++ w] := by
  intro w
  induction w with
  | nil =>
    intro buf _ hne
    have hbuf : ¬ buf.isEmpty := by
      simp only [List.isEmpty_iff]
      exact fun h => hne ⟨h, rfl⟩
    show pySplitAux buf [] = [buf.reverse ++ []]
    unfold pySplitAux
    rw [if_neg hbuf, List.append_nil]
  | cons c w' ih =>
    intro buf hws _
    have hc : isSpace c = false := hws c (List.mem_cons_self _ _)
    show pySplitAux buf (c :: w') = [buf.reverse ++ c :: w']
    unfold pySplitAux
    rw [if_neg (by simp [hc])]
    rw [ih (c :: buf) (fun d hd => hws d (List.mem_cons_of_mem _ hd)) (by simp)]
    simp [List.reverse_cons, List.append_assoc]

theorem pySplit_word (w : List Char) (hne : w ≠ [])
    (hws : ∀ c ∈ w, isSpace c = false) : pySplit w = [w] := by
  unfold pySplit
  rw [pySplitAux_all_nonspace w [] hws (fun h => hne h.2)]
  rfl

theorem pySplitAux_words (l : List Char) :
    ∀ buf, (∀ c ∈ buf, isSpace c = false) →
      ∀ w ∈ pySplitAux buf l, w ≠ [] ∧ ∀ c ∈ w, isSpace c = false := by
  induction l with
  | nil =>
    intro buf hbuf w hw
    unfold pySplitAux at hw
    by_cases hbe : buf.isEmpty
    · rw [if_pos hbe] at hw
      simp at hw
    · rw [if_neg hbe] at hw
      have hwe : w = buf.reverse := by simpa using hw
      subst hwe
      refine ⟨?_, fun c hc => hbuf c (List.mem_reverse.mp hc)⟩
      simp only [List.isEmpty_iff] at hbe
      simp [hbe]
  | cons c cs ih =>
    intro buf hbuf w hw
    unfold pySplitAux at hw
    by_cases hsp : isSpace c
    · rw [if_pos hsp] at hw
      by_cases hbe : buf.isEmpty
      · rw [if_pos hbe] at hw
        exact ih [] (by simp) w hw
      · rw [if_neg hbe] at hw
        rcases List.mem_cons.mp hw with hw | hw
        · subst hw
          refine ⟨?_, fun d hd => hbuf d (List.mem_reverse.mp hd)⟩
          simp only [List.isEmpty_iff] at hbe
          simp [hbe]
        · exact ih [] (by simp) w hw
    · rw [if_neg hsp] at hw
      refine ih (c :: buf) ?_ w hw
      intro d hd
      rcases List.mem_cons.mp hd with hd | hd
      · subst hd
        simpa using hsp
      · exact hbuf d hd

theorem pySplit_joinSpace (lines : List (List Char)) :
    pySplit (joinSpace lines) = lines.flatMap pySplit := by
  induction lines with
  | nil => rfl
  | cons l ls ih =>
    cases ls with
    | nil => simp [joinSpace, List.intercalate]
    | cons l2 ls' =>
      have hstep : joinSpace (l :: l2 :: ls') = l ++ ' ' :: joinSpace (l2 :: ls') := by
        simp [joinSpace, List.intercalate, List.intersperse]
      rw [hstep, pySplit_append_space, ih]
      rfl

theorem dropWhile_eq_self_of_head (p : Char → Bool) (l : List Char)
    (h : ∀ c, l.head? = some c → p c = false) : l.dropWhile p = l := by
  cases l with
  | nil => rfl
  | cons c cs => exact List.dropWhile_cons_of_neg (by simp [h c rfl])

theorem stripWS_eq_self (l : List Char)
    (hh : ∀ c, l.head? = some c → isSpace c = false)
    (hl : ∀ c, l.getLast? = some c → isSpace c = false) : stripWS l = l := by
  unfold stripWS
  rw [dropWhile_eq_self_of_head isSpace l hh]
  rw [dropWhile_eq_self_of_head isSpace l.reverse
    (fun c hc => hl c (by rwa [List.head?_reverse] at hc))]
  exact List.reverse_reverse l

theorem stripWS_cons_space (c : Char) (l : List Char) (h : isSpace c = true) :
    stripWS (c :: l) = stripWS l := by
  unfold stripWS
  rw [List.dropWhile_cons_of_pos h]

theorem noEdgeWS_of_word (w : List Char) (hws : ∀ c ∈ w, isSpace c = false) :
    NoEdgeWS w :=
  ⟨fun c hc => hws c (List.mem_of_mem_head? (by simpa using hc)),
   fun c hc => hws c (List.mem_of_mem_getLast? (by simpa using hc))⟩

theorem wrap_test_eq (cur w : List Char) (hcur : NoEdgeWS cur)
    (hw : w ≠ []) (hwc : ∀ c ∈ w, isSpace c = false) :
    stripWS (cur ++ ' ' :: w) = (if cur = [] then w else cur ++ ' ' :: w) := by
  by_cases hc : cur = []
  · subst hc
    rw [if_pos rfl, List.nil_append, stripWS_cons_space ' ' w (by decide)]
    exact stripWS_eq_self w (noEdgeWS_of_word w hwc).1 (noEdgeWS_of_word w hwc).2
  · rw [if_neg hc]
    apply stripWS_eq_self
    · intro c hcc
      cases cur with
      | nil => exact absurd rfl hc
      | cons d cur' =>
        simp only [List.cons_append, List.head?_cons, Option.some_inj] at hcc
        subst hcc
        exact hcur.1 _ rfl
    · intro c hcc
      rw [List.getLast?_append_of_ne_nil cur (List.cons_ne_nil ' ' w)] at hcc
      have : (' ' :: w).getLast? = w.getLast? := by
        show ([' '] ++ w).getLast? = w.getLast?
        exact List.getLast?_append_of_ne_nil [' '] hw
      rw [this] at hcc
      exact (noEdgeWS_of_word w hwc).2 c hcc

theorem wrap_test_noEdgeWS (cur w : List Char) (hcur : NoEdgeWS cur)
    (hw : w ≠ []) (hwc : ∀ c ∈ w, isSpace c = false) :
    NoEdgeWS (stripWS (cur ++ ' ' :: w)) := by
  rw [wrap_test_eq cur w hcur hw hwc]
  by_cases hc : cur = []
  · rw [if_pos hc]
    exact noEdgeWS_of_word w hwc
  · rw [if_neg hc]
    constructor
    · intro c hcc
      cases cur with
      | nil => exact absurd rfl hc
      | cons d cur' =>
        simp only [List.cons_append, List.head?_cons, Option.some_inj] at hcc
        subst hcc
        exact hcur.1 _ rfl
    · intro c hcc
      rw [List.getLast?_append_of_ne_nil cur (List.cons_ne_nil ' ' w)] at hcc
      have h2 : (' ' :: w).getLast? = w.getLast? := by
        show ([' '] ++ w).getLast? = w.getLast?
        exact List.getLast?_append_of_ne_nil [' '] hw
      rw [h2] at hcc
      exact (noEdgeWS_of_word w hwc).2 c hcc

theorem wrap_test_pySplit (cur w : List Char) (hcur : NoEdgeWS cur)
    (hw : w ≠ []) (hwc : ∀ c ∈ w, isSpace c = false) :
    pySplit (stripWS (cur ++ ' ' :: w)) = pySplit cur ++ [w] := by
  rw [wrap_test_eq cur w hcur hw hwc]
  by_cases hc : cur = []
  · rw [if_pos hc, hc]
    rw [pySplit_word w hw hwc]
    rfl
  · rw [if_neg hc, pySplit_append_space, pySplit_word w hw hwc]

theorem wrapStep_words (width : List Char → Nat) (maxW : Nat)
    (st : List (List Char) × List Char) (w : List Char)
    (hw : w ≠ [] ∧ ∀ c ∈ w, isSpace c = false) (hcur : NoEdgeWS st.2) :
    ((wrapStep width maxW st w).1.flatMap pySplit ++
        pySplit (wrapStep width maxW st w).2 =
      st.1.flatMap pySplit ++ pySplit st.2 ++ [w]) ∧
    NoEdgeWS (wrapStep width maxW st w).2 := by
  obtain ⟨hwne, hwc⟩ := hw
  unfold wrapStep
  by_cases hfit : width (stripWS (st.2 ++ ' ' :: w)) ≤ maxW
  · rw [if_pos hfit]
    refine ⟨?_, wrap_test_noEdgeWS st.2 w hcur hwne hwc⟩
    simp only
    rw [wrap_test_pySplit st.2 w hcur hwne hwc, List.append_assoc]
  · rw [if_neg hfit]
    by_cases hce : st.2 = []
    · rw [if_pos hce]
      refine ⟨?_, noEdgeWS_of_word w hwc⟩
      simp only
      rw [hce, pySplit_word w hwne hwc]
      have hnil : pySplit ([] : List Char) = [] := rfl
      rw [hnil, List.append_nil]
    · rw [if_neg hce]
      refine ⟨?_, noEdgeWS_of_word w hwc⟩
      simp only
      rw [List.flatMap_append, pySplit_word w hwne hwc]
      simp [List.append_assoc]

theorem wrapFold_words (width : List Char → Nat) (maxW : Nat) :
    ∀ (ws : List (List Char)) (st : List (List Char) × List Char),
      (∀ w ∈ ws, w ≠ [] ∧ ∀ c ∈ w, isSpace c = false) → NoEdgeWS st.2 →
      ((ws.foldl (wrapStep width maxW) st).1.flatMap pySplit ++
          pySplit (ws.foldl (wrapStep width maxW) st).2 =
        st.1.flatMap pySplit ++ pySplit st.2 ++ ws) ∧
      NoEdgeWS (ws.foldl (wrapStep width maxW) st).2 := by
  intro ws
  induction ws with
  | nil =>
    intro st _ hcur
    exact ⟨by simp, hcur⟩
  | cons w ws ih =>
    intro st hws hcur
    rw [List.foldl_cons]
    have hstep := wrapStep_words width maxW st w (hws w (List.mem_cons_self _ _)) hcur
    have hih := ih (wrapStep width maxW st w)
      (fun v hv => hws v (List.mem_cons_of_mem _ hv)) hstep.2
    refine ⟨?_, hih.2⟩
    rw [hih.1, hstep.1, List.append_assoc]
    rfl

/-- Claim C10: `wrap_text` loses no words and reorders none: joining the
returned lines with single spaces and re-splitting on whitespace gives
exactly the whitespace-split word list of the input, in order. -/
theorem C10_wrap_preserves_words (width : List Char → Nat) (text : List Char)
    (maxWidth : Nat) :
    pySplit (joinSpace (wrap_text width text maxWidth)) = pySplit text := by
  rw [pySplit_joinSpace]
  unfold wrap_text
  have hws : ∀ w ∈ pySplit text, w ≠ [] ∧ ∀ c ∈ w, isSpace c = false :=
    fun w hw => pySplitAux_words text [] (by simp) w hw
  have hfold := wrapFold_words width maxWidth (pySplit text) ([], []) hws
    ⟨fun c hc => by simp at hc, fun c hc => by simp at hc⟩
  set st := (pySplit text).foldl (wrapStep width maxWidth) ([], []) with hst
  by_cases hcur : st.2 = []
  · rw [if_pos hcur]
    have h1 := hfold.1
    rw [hcur] at h1
    simpa [show pySplit ([] : List Char) = [] from rfl] using h1
  · rw [if_neg hcur]
    rw [List.flatMap_append]
    have h2 : ([st.2] : List (List Char)).flatMap pySplit = pySplit st.2 := by simp
    rw [h2]
    simpa [show pySplit ([] : List Char) = [] from rfl] using hfold.1

end BibleVerse
